import Mathlib

/-!
Shallow embedding of the summarization core of `send_core.py`
(language detection, model selection, chunking, and the long-document
summarization orchestrator), together with theorems checking the
natural-language specification against it.

Conventions of the embedding:
* Python strings are Lean `String`s; code-point slicing and length agree
  because every function here is applied to BMP text.
* The two network oracles (model discovery and text generation) are a
  `Backend` record; every call the orchestrator makes is recorded in an
  explicit `Call` trace so that call-counting claims are statable.
* Python exceptions are `Except String` values carrying the message; the
  orchestrator never catches, so an error from an oracle is returned as-is.
* The hard-split loop of `chunk_text` is fuel-indexed (`Option` result,
  `none` = fuel exhausted); with `overlap < max_chars` the canonical fuel
  is proven sufficient, and with `overlap ≥ max_chars` the loop provably
  exhausts every fuel, which is how the Python infinite loop shows up.
-/

set_option maxRecDepth 8000

namespace SMS

/-- Whitespace test matching what `str.strip()` removes on ASCII input. -/
def isWs (c : Char) : Bool :=
  c == ' ' || c == '\t' || c == '\n' || c == '\r'

/-- `l.strip()` on a list of characters: drop leading and trailing whitespace. -/
def strip (l : List Char) : List Char :=
  ((l.dropWhile isWs).reverse.dropWhile isWs).reverse

/-- `s.strip()` on strings. -/
def stripStr (s : String) : String :=
  String.mk (strip s.toList)

/-- `s[:n]` on strings (code-point slicing). -/
def takeStr (n : Nat) (s : String) : String :=
  String.mk (s.toList.take n)

/-- Number of characters of the CJK block U+4E00–U+9FFF, the count of
`re.findall(r"[一-鿿]", text)` in `detect_language`. -/
def countCJK (l : List Char) : Nat :=
  l.countP (fun c => decide (0x4E00 ≤ c.toNat) && decide (c.toNat ≤ 0x9FFF))

/-- `detect_language` from `send_core.py`: the CJK-ratio heuristic.
The float comparison `cjk / total >= 0.08` is modelled exactly, with the
positive denominators cleared: `8 * total ≤ 100 * cjk`.  The theorem
`detect_language_spec` below recovers the `ratio ≥ 8/100` reading over `ℚ`. -/
def detect_language (text : String) : String :=
  if text = "" then "en"
  else
    let cjk : Nat := countCJK text.toList
    let total : Nat := max text.length 1
    if 8 * total ≤ 100 * cjk then "zh" else "en"

/-- Bool test: `pat` is a leading piece of `l` (character lists). -/
def listIsPrefOf : List Char → List Char → Bool
  | [], _ => true
  | _ :: _, [] => false
  | a :: as, b :: bs => (a == b) && listIsPrefOf as bs

/-- Bool test for Python's substring operator `pat in l`. -/
def listHasSub (pat : List Char) : List Char → Bool
  | [] => pat.isEmpty
  | l@(_ :: rest) => listIsPrefOf pat l || listHasSub pat rest

/-- Python `pat in s` on strings. -/
def strHasSub (s pat : String) : Bool :=
  listHasSub pat.toList s.toList

/-- Python `s.lower()` (ASCII model identifiers). -/
def toLowerStr (s : String) : String :=
  String.mk (s.toList.map Char.toLower)

deriving instance DecidableEq for Except

/-- Errors are the exception messages; the orchestrator forwards them
unmodified. -/
abbrev Err := String

/-- One backend interaction made by the orchestrator: the model-discovery
HTTP call of `list_gemini_models`, or one `gemini_generate(prompt, model)`
call. -/
inductive Call where
  | listModels : Call
  | generate (prompt : String) (model : String) : Call
deriving DecidableEq, Repr

/-- The two network oracles of `send_core.py`.  `models` is the outcome of
the discovery request (the identifiers supporting `generateContent`, before
the emptiness check the code itself performs); `gen prompt model` is the
outcome of one generation request. -/
structure Backend where
  models : Except Err (List String)
  gen : String → String → Except Err String

/-- The meta dictionary returned by `summarize_long_document`:
`{"chunks": …}` on the empty path, `{"chunks": …, "model": …}` otherwise. -/
structure Meta where
  chunks : Nat
  model : Option String
deriving DecidableEq, Repr

/-- `list_gemini_models`: returns the discovered list, raising when the
discovery call fails or the list of generation-capable models is empty. -/
def list_gemini_models (B : Backend) : Except Err (List String) :=
  match B.models with
  | .error e => .error e
  | .ok supported =>
    if supported = [] then
      .error "No Gemini models available for generateContent under this API key."
    else .ok supported

/-- The selection scan inside `pick_model`: first identifier containing
"flash" (case-insensitively), else first containing "pro", else the head
(`models[0]`; `none` marks the IndexError of indexing an empty list). -/
def pick_from (models : List String) : Option String :=
  let lower := models.map (fun m => (m, toLowerStr m))
  match (lower.find? (fun p => strHasSub p.2 "flash")).map Prod.fst with
  | some m => some m
  | none =>
    match (lower.find? (fun p => strHasSub p.2 "pro")).map Prod.fst with
    | some m => some m
    | none => models.head?

/-- `pick_model` from `send_core.py`.  The `preferred_keywords` parameter is
declared by the source (default `("flash", "pro")`) but never read by the
body, which hardcodes the two scans. -/
def pick_model (B : Backend) ( preferred_keywords : List String) : Except Err String :=
  match list_gemini_models B with
  | .error e => .error e
  | .ok models =>
    match pick_from models with
    | some m => .ok m
    | none => .error "IndexError: list index out of range"

/-- Modelled from the spec (`§4.3 Model Selector`): the spec's wording of the
selection — scan for the first "flash" match, then the first "pro" match,
then fall back to the first listed model.  Compared against `pick_from`. -/
def spec_pick (models : List String) : Option String :=
  match models.find? (fun m => strHasSub (toLowerStr m) "flash") with
  | some m => some m
  | none =>
    match models.find? (fun m => strHasSub (toLowerStr m) "pro") with
    | some m => some m
    | none => models.head?

/-- `re.split(r"\n{2,}", ·)`: split on maximal runs of two or more
newlines.  `seg` is the reversed current segment, `pend` the number of
newlines read but not yet classified (a run of length 1 stays inside the
segment; a run of length ≥ 2 is a separator). -/
def splitNlAux : List Char → List Char → Nat → List (List Char)
  | [], seg, pend =>
    if 2 ≤ pend then [seg.reverse, []]
    else [(List.replicate pend '\n' ++ seg).reverse]
  | c :: rest, seg, pend =>
    if c = '\n' then splitNlAux rest seg (pend + 1)
    else if 2 ≤ pend then seg.reverse :: splitNlAux rest [c] 0
    else splitNlAux rest (c :: (List.replicate pend '\n' ++ seg)) 0

/-- The paragraph list of `chunk_text`:
`[p.strip() for p in re.split(r"\n{2,}", text) if p.strip()]`. -/
def parasOf (t : List Char) : List (List Char) :=
  ((splitNlAux t [] 0).map strip).filter (fun p => !p.isEmpty)

/-- The hard-split `while start < len(p)` loop of `chunk_text`, advancing by
`max_chars - overlap` and appending `p[start:start+max_chars].strip()` each
iteration.  Fuel-indexed: `none` means the fuel ran out before the loop
exited. -/
def hardSplitAux (maxc ov : Nat) (p : List Char) : Nat → Nat → Option (List (List Char))
  | 0, start => if start < p.length then none else some []
  | fuel + 1, start =>
    if start < p.length then
      match hardSplitAux maxc ov p fuel (start + (maxc - ov)) with
      | none => none
      | some rest => some (strip ((p.drop start).take maxc) :: rest)
    else some []

/-- The `flush()` closure of `chunk_text`: append `buf.strip()` when it is
non-empty. -/
def flushInto (chunks : List (List Char)) (buf : List Char) : List (List Char) :=
  if strip buf = [] then chunks else chunks ++ [strip buf]

/-- The `for p in paras` loop of `chunk_text`, carrying `(chunks, buf)`. -/
def chunkLoop (maxc ov fuel : Nat) :
    List (List Char) → List Char → List (List Char) →
      Option (List (List Char) × List Char)
  | chunks, buf, [] => some (chunks, buf)
  | chunks, buf, p :: ps =>
    if buf.length + p.length + 2 ≤ maxc then
      chunkLoop maxc ov fuel chunks (strip (buf ++ '\n' :: '\n' :: p)) ps
    else
      let chunks1 := flushInto chunks buf
      if p.length ≤ maxc then
        chunkLoop maxc ov fuel chunks1 p ps
      else
        match hardSplitAux maxc ov p fuel 0 with
        | none => none
        | some parts => chunkLoop maxc ov fuel (chunks1 ++ parts) [] ps

/-- `chunk_text` on character lists, fuel-indexed. -/
def chunk_textL (fuel : Nat) (text : List Char) (maxc ov : Nat) :
    Option (List (List Char)) :=
  let t := strip text
  if t = [] then some []
  else
    match chunkLoop maxc ov fuel [] [] (parasOf t) with
    | none => none
    | some (chunks, buf) => some (flushInto chunks buf)

/-- `chunk_text` from `send_core.py`.  The canonical fuel `length + 1` is
sufficient whenever `overlap < max_chars` (proven below); `none` only
arises when the Python loop would not terminate. -/
def chunk_text (s : String) (maxc ov : Nat) : Option (List String) :=
  (chunk_textL (s.length + 1) s.toList maxc ov).map (fun cs => cs.map String.mk)

/-- The language directive line shared by both prompt builders. -/
def lang_rule (out_lang : String) : String :=
  if out_lang = "zh" then "Respond in Chinese (简体中文)." else "Respond in English."

/-- The prompt of `summarize_condensed` (the final-mode compression
contract), with the trailing `.strip()` the source applies. -/
def condensedPrompt (out_lang text : String) : String :=
  stripStr ("Task: Condensed compression summary.\n\nStrict rules:\n- Output ONLY the compressed summary.\n- No title. No intro. No conclusion.\n- Do NOT add action items, recommendations, implications, or extra reasoning.\n- Do NOT infer missing information. Do NOT expand beyond the source.\n- Keep only core arguments and key facts. Remove examples/background/filler.\n- Be strictly objective.\n- Use 4–6 bullet points ONLY.\n- Each bullet ≤ 15 words.\n- Target total length: 40–100 words.\n- " ++ lang_rule out_lang ++ "\n\nContent:\n" ++ text)

/-- `summarize_condensed` from `send_core.py`: build the final-mode prompt
and make one generation call.  Returns the call outcome and the singleton
call trace. -/
def summarize_condensed (B : Backend) (text out_lang model_name : String) :
    Except Err String × List Call :=
  let prompt := condensedPrompt out_lang text
  (B.gen prompt model_name, [Call.generate prompt model_name])

/-- The chunk-mode prompt built inside `summarize_long_document`'s map loop,
with the `ch[:14000]` truncation and the trailing `.strip()`. -/
def chunkPrompt (out_lang : String) (idx total : Nat) (ch : String) : String :=
  stripStr ("Task: Ultra-short chunk compression.\n\nRules:\n- Output ONLY 2–3 bullet points.\n- Each bullet ≤ 12 words.\n- No conclusions, no action items, no extra reasoning.\n- Strictly objective and faithful.\n- " ++ lang_rule out_lang ++ "\n\nChunk " ++ toString idx ++ "/" ++ toString total ++ ":\n" ++ takeStr 14000 ch)

/-- The `for idx, ch in enumerate(chunks, start=1)` map loop of
`summarize_long_document`: one chunk-mode generation call per chunk, in
order, stopping at the first failure.  Returns the collected partial
summaries (or the first error) and the trace of calls actually made. -/
def mapChunks (B : Backend) (out_lang model_name : String) (total : Nat) :
    Nat → List String → Except Err (List String) × List Call
  | _, [] => (.ok [], [])
  | idx, ch :: rest =>
    let prompt := chunkPrompt out_lang idx total ch
    match B.gen prompt model_name with
    | .error e => (.error e, [Call.generate prompt model_name])
    | .ok s =>
      match mapChunks B out_lang model_name total (idx + 1) rest with
      | (.error e, tr) => (.error e, Call.generate prompt model_name :: tr)
      | (.ok ps, tr) => (.ok (s :: ps), Call.generate prompt model_name :: tr)

/-- The resolved output language of `summarize_long_document` (step 2 of
the spec): the forced language when it is `"zh"`/`"en"`, else detection. -/
def langOf (raw : String) (force : Option String) : String :=
  match force with
  | some fl => if fl = "zh" ∨ fl = "en" then fl else detect_language raw
  | none => detect_language raw

/-- Spec side of the map phase: the expected chunk-mode calls, one per
chunk, in chunk order, with 1-based indices. -/
def chunkCallTrace (out_lang model : String) (total : Nat) :
    Nat → List String → List Call
  | _, [] => []
  | idx, ch :: rest =>
    Call.generate (chunkPrompt out_lang idx total ch) model
      :: chunkCallTrace out_lang model total (idx + 1) rest

/-- Spec side of the map phase: the expected partial summaries when the
generation oracle is the total function `f`. -/
def chunkPartials (f : String → String → String) (out_lang model : String)
    (total : Nat) : Nat → List String → List String
  | _, [] => []
  | idx, ch :: rest =>
    f (chunkPrompt out_lang idx total ch) model
      :: chunkPartials f out_lang model total (idx + 1) rest

/-- `summarize_long_document` from `send_core.py`, with its call trace.
The `"nontermination"` branch is the fuel-exhaustion case of `chunk_text`,
proven unreachable at the hardcoded `(12000, 600)` configuration. -/
def summarize_long_document (B : Backend) (raw_text : String)
    (force_lang : Option String) :
    Except Err (String × String × Meta) × List Call :=
  if stripStr raw_text = "" then
    (.ok ("No content provided.", "en", ⟨0, none⟩), [])
  else
    let out_lang := langOf raw_text force_lang
    match pick_model B ["flash", "pro"] with
    | .error e => (.error e, [Call.listModels])
    | .ok model_name =>
      match chunk_text raw_text 12000 600 with
      | none => (.error "nontermination", [Call.listModels])
      | some chunks =>
        if chunks.length ≤ 1 then
          match summarize_condensed B (takeStr 20000 raw_text) out_lang model_name with
          | (.error e, tr) => (.error e, Call.listModels :: tr)
          | (.ok final, tr) =>
            (.ok (final, out_lang, ⟨chunks.length, some model_name⟩),
              Call.listModels :: tr)
        else
          match mapChunks B out_lang model_name chunks.length 1 chunks with
          | (.error e, tr) => (.error e, Call.listModels :: tr)
          | (.ok partials, tr) =>
            let merged := String.intercalate "\n" partials
            match summarize_condensed B (takeStr 20000 merged) out_lang model_name with
            | (.error e, tr2) => (.error e, Call.listModels :: (tr ++ tr2))
            | (.ok final, tr2) =>
              (.ok (final, out_lang, ⟨chunks.length, some model_name⟩),
                Call.listModels :: (tr ++ tr2))

/-- A backend whose discovery and generation calls all succeed, used by
concrete instantiations. -/
def okBackend : Backend := ⟨.ok ["m-flash"], fun _ _ => .ok "S"⟩

/-- A backend whose discovery call fails, used by concrete instantiations. -/
def downBackend : Backend := ⟨.error "ListModels error 503: upstream down", fun _ _ => .error "unreachable"⟩

/-- A backend that discovers a model but whose generation calls fail. -/
def genFailBackend : Backend := ⟨.ok ["m-flash"], fun _ _ => .error "Gemini error 500: boom"⟩

/-- A Chinese-script document (detection would say `"zh"`). -/
def zhDoc : String := "你好世界你好世界你好世界"

/-- First 7000-character paragraph of the multi-chunk witness document. -/
def paraA : List Char := List.replicate 7000 'a'

/-- Second 7000-character paragraph of the multi-chunk witness document. -/
def paraB : List Char := List.replicate 7000 'b'

/-- A 14002-character two-paragraph document that chunks into exactly two
chunks at the hardcoded `(12000, 600)` configuration. -/
def bigDoc : String := String.mk (paraA ++ '\n' :: '\n' :: paraB)

/-- The constant generation oracle used by the multi-chunk witness. -/
def constGen : String → String → String := fun _ _ => "S"

/-! ### Lemmas and sanity checks -/

example : chunk_text "hello" 10 2 = some ["hello"] := by decide
example : chunk_text "a\n\nb" 3 1 = some ["a", "b"] := by decide
example : chunk_text "abcdefgh" 3 1 = some ["abc", "cde", "efg", "gh"] := by decide
example : chunk_text "   \n \n  " 10 2 = some [] := by decide
example : chunk_text "aaaaaaaaaa" 5 5 = none := by decide

example :
    summarize_long_document ⟨.ok ["m"], fun _ _ => .ok "S"⟩ "" none
      = (.ok ("No content provided.", "en", ⟨0, none⟩), []) := by decide

example :
    (summarize_long_document ⟨.ok ["m-flash"], fun _ _ => .ok "S"⟩ "hi" none).1
      = .ok ("S", "en", ⟨1, some "m-flash"⟩) := by decide

lemma strip_length_le (l : List Char) : (strip l).length ≤ l.length := by
  unfold strip
  calc ((l.dropWhile isWs).reverse.dropWhile isWs).reverse.length
      = ((l.dropWhile isWs).reverse.dropWhile isWs).length := List.length_reverse _
    _ ≤ (l.dropWhile isWs).reverse.length := (List.dropWhile_sublist _).length_le
    _ = (l.dropWhile isWs).length := List.length_reverse _
    _ ≤ l.length := (List.dropWhile_sublist _).length_le

lemma strip_eq_nil_iff (l : List Char) : strip l = [] ↔ ∀ c ∈ l, isWs c := by
  unfold strip
  rw [List.reverse_eq_nil_iff, List.dropWhile_eq_nil_iff]
  simp only [List.mem_reverse]
  constructor
  · intro h c hc
    rcases List.mem_append.mp ((List.takeWhile_append_dropWhile (p := isWs) (l := l)) ▸ hc)
      with h1 | h1
    · exact List.mem_takeWhile_imp h1
    · exact h c h1
  · intro h c hc
    exact h c ((List.dropWhile_sublist _).subset hc)

lemma dropWhile_cons_not {p : Char → Bool} {l : List Char} {c : Char} {rest : List Char}
    (h : l.dropWhile p = c :: rest) : p c = false := by
  induction l with
  | nil => simp at h
  | cons a t ih =>
    rw [List.dropWhile_cons] at h
    by_cases ha : p a
    · rw [if_pos ha] at h; exact ih h
    · rw [if_neg ha] at h
      rw [List.cons.injEq] at h
      rw [h.1] at ha
      simpa using ha

lemma exists_nonWs_of_strip_ne_nil {l : List Char} (h : strip l ≠ []) :
    ∃ c ∈ strip l, isWs c = false := by
  cases hBc : (l.dropWhile isWs).reverse.dropWhile isWs with
  | nil => exact absurd (by unfold strip; rw [hBc]; rfl) h
  | cons c rest =>
    refine ⟨c, ?_, dropWhile_cons_not hBc⟩
    show c ∈ strip l
    unfold strip
    rw [hBc]
    simp

lemma strip_ne_nil_of_exists {l : List Char} (h : ∃ c ∈ l, isWs c = false) :
    strip l ≠ [] := by
  intro hnil
  obtain ⟨c, hcl, hcw⟩ := h
  have := (strip_eq_nil_iff l).mp hnil c hcl
  simp [this] at hcw

lemma hardSplitAux_some (maxc ov : Nat) (hov : ov < maxc) (p : List Char) :
    ∀ fuel start, p.length ≤ fuel + start →
      ∃ parts, hardSplitAux maxc ov p fuel start = some parts := by
  intro fuel
  induction fuel with
  | zero =>
    intro start h
    refine ⟨[], ?_⟩
    simp only [hardSplitAux]
    rw [if_neg (by omega)]
  | succ n ih =>
    intro start h
    by_cases hs : start < p.length
    · obtain ⟨rest, hrest⟩ := ih (start + (maxc - ov)) (by omega)
      exact ⟨_, by simp only [hardSplitAux]; rw [if_pos hs, hrest]⟩
    · exact ⟨[], by simp only [hardSplitAux]; rw [if_neg hs]⟩

lemma hardSplitAux_none (maxc ov : Nat) (hov : maxc ≤ ov) (p : List Char) :
    ∀ fuel start, start < p.length → hardSplitAux maxc ov p fuel start = none := by
  intro fuel
  induction fuel with
  | zero => intro start hs; simp only [hardSplitAux]; rw [if_pos hs]
  | succ n ih =>
    intro start hs
    simp only [hardSplitAux]
    rw [if_pos hs, Nat.sub_eq_zero_of_le hov, Nat.add_zero, ih start hs]

lemma hardSplitAux_bound (maxc ov : Nat) (p : List Char) :
    ∀ fuel start parts, hardSplitAux maxc ov p fuel start = some parts →
      ∀ c ∈ parts, c.length ≤ maxc := by
  intro fuel
  induction fuel with
  | zero =>
    intro start parts h
    simp only [hardSplitAux] at h
    by_cases hs : start < p.length
    · rw [if_pos hs] at h; cases h
    · rw [if_neg hs] at h
      cases h
      intro c hc
      cases hc
  | succ n ih =>
    intro start parts h
    simp only [hardSplitAux] at h
    by_cases hs : start < p.length
    · rw [if_pos hs] at h
      cases hrec : hardSplitAux maxc ov p n (start + (maxc - ov)) with
      | none => rw [hrec] at h; cases h
      | some rest =>
        rw [hrec] at h
        cases h
        intro c hc
        rcases List.mem_cons.mp hc with hc | hc
        · subst hc
          refine le_trans (strip_length_le _) ?_
          rw [List.length_take]
          omega
        · exact ih _ _ hrec c hc
    · rw [if_neg hs] at h
      cases h
      intro c hc
      cases hc

lemma hardSplitAux_ne_nil (maxc ov : Nat) (p : List Char) (fuel start : Nat)
    (parts : List (List Char)) (h : hardSplitAux maxc ov p fuel start = some parts)
    (hs : start < p.length) : parts ≠ [] := by
  cases fuel with
  | zero => simp only [hardSplitAux] at h; rw [if_pos hs] at h; cases h
  | succ n =>
    simp only [hardSplitAux] at h
    rw [if_pos hs] at h
    cases hrec : hardSplitAux maxc ov p n (start + (maxc - ov)) with
    | none => rw [hrec] at h; cases h
    | some rest => rw [hrec] at h; cases h; exact List.cons_ne_nil _ _

lemma splitNlAux_length_le :
    ∀ (input seg : List Char) (pend : Nat) (s : List Char),
      s ∈ splitNlAux input seg pend → s.length ≤ input.length + seg.length + pend := by
  intro input
  induction input with
  | nil =>
    intro seg pend s hs
    simp only [splitNlAux] at hs
    by_cases h2 : 2 ≤ pend
    · rw [if_pos h2] at hs
      rcases List.mem_cons.mp hs with rfl | hs'
      · simp
      · rcases List.mem_singleton.mp hs' with rfl
        simp
    · rw [if_neg h2] at hs
      rcases List.mem_singleton.mp hs with rfl
      simp only [List.length_reverse, List.length_append, List.length_replicate,
        List.length_nil]
      omega
  | cons c rest ih =>
    intro seg pend s hs
    simp only [splitNlAux] at hs
    by_cases hc : c = '\n'
    · rw [if_pos hc] at hs
      have := ih seg (pend + 1) s hs
      simp only [List.length_cons]
      omega
    · rw [if_neg hc] at hs
      by_cases h2 : 2 ≤ pend
      · rw [if_pos h2] at hs
        rcases List.mem_cons.mp hs with rfl | hs'
        · simp only [List.length_reverse, List.length_cons]
          omega
        · have := ih [c] 0 s hs'
          simp only [List.length_cons, List.length_nil] at this ⊢
          omega
      · rw [if_neg h2] at hs
        have := ih (c :: (List.replicate pend '\n' ++ seg)) 0 s hs
        simp only [List.length_cons, List.length_append, List.length_replicate] at this ⊢
        omega

lemma splitNlAux_exists_nonWs :
    ∀ (input seg : List Char) (pend : Nat),
      ((∃ c ∈ input, isWs c = false) ∨ (∃ c ∈ seg, isWs c = false)) →
      ∃ s ∈ splitNlAux input seg pend, ∃ c ∈ s, isWs c = false := by
  intro input
  induction input with
  | nil =>
    intro seg pend h
    rcases h with ⟨c, hc, -⟩ | ⟨c, hc, hcw⟩
    · cases hc
    · simp only [splitNlAux]
      by_cases h2 : 2 ≤ pend
      · rw [if_pos h2]
        exact ⟨seg.reverse, by simp, c, by simpa using hc, hcw⟩
      · rw [if_neg h2]
        exact ⟨(List.replicate pend '\n' ++ seg).reverse, List.mem_singleton_self _,
          c, by simp [hc], hcw⟩
  | cons a rest ih =>
    intro seg pend h
    simp only [splitNlAux]
    by_cases ha : a = '\n'
    · rw [if_pos ha]
      apply ih
      rcases h with ⟨c, hc, hcw⟩ | hseg
      · rcases List.mem_cons.mp hc with rfl | hc'
        · rw [ha] at hcw; simp [isWs] at hcw
        · exact Or.inl ⟨c, hc', hcw⟩
      · exact Or.inr hseg
    · rw [if_neg ha]
      by_cases h2 : 2 ≤ pend
      · rw [if_pos h2]
        rcases h with ⟨c, hc, hcw⟩ | ⟨c, hc, hcw⟩
        · rcases List.mem_cons.mp hc with rfl | hc'
          · obtain ⟨s, hs, hw⟩ := ih [c] 0 (Or.inr ⟨c, by simp, hcw⟩)
            exact ⟨s, List.mem_cons_of_mem _ hs, hw⟩
          · obtain ⟨s, hs, hw⟩ := ih [a] 0 (Or.inl ⟨c, hc', hcw⟩)
            exact ⟨s, List.mem_cons_of_mem _ hs, hw⟩
        · exact ⟨seg.reverse, List.mem_cons_self _ _, c, by simpa using hc, hcw⟩
      · rw [if_neg h2]
        apply ih
        rcases h with ⟨c, hc, hcw⟩ | ⟨c, hc, hcw⟩
        · rcases List.mem_cons.mp hc with rfl | hc'
          · exact Or.inr ⟨c, by simp, hcw⟩
          · exact Or.inl ⟨c, hc', hcw⟩
        · exact Or.inr ⟨c, by simp [hc], hcw⟩

lemma parasOf_length_le (t p : List Char) (hp : p ∈ parasOf t) : p.length ≤ t.length := by
  unfold parasOf at hp
  obtain ⟨hp1, -⟩ := List.mem_filter.mp hp
  obtain ⟨s, hs, rfl⟩ := List.mem_map.mp hp1
  have := splitNlAux_length_le t [] 0 s hs
  have h2 := strip_length_le s
  simp only [List.length_nil] at this
  omega

lemma parasOf_exists_nonWs (t p : List Char) (hp : p ∈ parasOf t) :
    ∃ c ∈ p, isWs c = false := by
  unfold parasOf at hp
  obtain ⟨hp1, hne⟩ := List.mem_filter.mp hp
  obtain ⟨s, hs, rfl⟩ := List.mem_map.mp hp1
  apply exists_nonWs_of_strip_ne_nil
  simpa using hne

lemma parasOf_ne_nil (t : List Char) (h : ∃ c ∈ t, isWs c = false) :
    parasOf t ≠ [] := by
  obtain ⟨s, hs, hnw⟩ := splitNlAux_exists_nonWs t [] 0 (Or.inl h)
  apply List.ne_nil_of_mem (a := strip s)
  unfold parasOf
  apply List.mem_filter.mpr
  refine ⟨List.mem_map.mpr ⟨s, hs, rfl⟩, ?_⟩
  simpa using strip_ne_nil_of_exists hnw

lemma flushInto_bound (maxc : Nat) (chunks : List (List Char)) (buf : List Char)
    (hc : ∀ c ∈ chunks, c.length ≤ maxc) (hb : buf.length ≤ maxc) :
    ∀ c ∈ flushInto chunks buf, c.length ≤ maxc := by
  intro c hmem
  unfold flushInto at hmem
  by_cases h : strip buf = []
  · rw [if_pos h] at hmem; exact hc c hmem
  · rw [if_neg h] at hmem
    rcases List.mem_append.mp hmem with h1 | h1
    · exact hc c h1
    · rcases List.mem_singleton.mp h1 with rfl
      exact le_trans (strip_length_le _) hb

lemma flushInto_ne_nil_left (chunks : List (List Char)) (buf : List Char)
    (h : chunks ≠ []) : flushInto chunks buf ≠ [] := by
  unfold flushInto
  split_ifs
  · exact h
  · intro hx; rw [List.append_eq_nil] at hx; exact h hx.1

lemma flushInto_ne_nil_right (chunks : List (List Char)) (buf : List Char)
    (h : strip buf ≠ []) : flushInto chunks buf ≠ [] := by
  unfold flushInto
  rw [if_neg h]
  intro hx
  rw [List.append_eq_nil] at hx
  exact List.cons_ne_nil _ _ hx.2

lemma chunkLoop_some (maxc ov fuel : Nat) (hov : ov < maxc) :
    ∀ (ps chunks : List (List Char)) (buf : List Char),
      (∀ p ∈ ps, p.length ≤ fuel) →
      ∃ out, chunkLoop maxc ov fuel chunks buf ps = some out := by
  intro ps
  induction ps with
  | nil => intro chunks buf _; exact ⟨(chunks, buf), rfl⟩
  | cons p ps ih =>
    intro chunks buf h
    have hp := h p (List.mem_cons_self _ _)
    have hps : ∀ q ∈ ps, q.length ≤ fuel := fun q hq => h q (List.mem_cons_of_mem _ hq)
    simp only [chunkLoop]
    by_cases h1 : buf.length + p.length + 2 ≤ maxc
    · rw [if_pos h1]; exact ih _ _ hps
    · rw [if_neg h1]
      by_cases h2 : p.length ≤ maxc
      · rw [if_pos h2]; exact ih _ _ hps
      · rw [if_neg h2]
        obtain ⟨parts, hparts⟩ := hardSplitAux_some maxc ov hov p fuel 0 (by omega)
        rw [hparts]
        exact ih _ _ hps

lemma chunkLoop_bound (maxc ov fuel : Nat) :
    ∀ (ps chunks : List (List Char)) (buf : List Char) out,
      chunkLoop maxc ov fuel chunks buf ps = some out →
      (∀ c ∈ chunks, c.length ≤ maxc) → buf.length ≤ maxc →
      (∀ c ∈ out.1, c.length ≤ maxc) ∧ out.2.length ≤ maxc := by
  intro ps
  induction ps with
  | nil =>
    intro chunks buf out h hc hb
    cases h
    exact ⟨hc, hb⟩
  | cons p ps ih =>
    intro chunks buf out h hc hb
    simp only [chunkLoop] at h
    by_cases h1 : buf.length + p.length + 2 ≤ maxc
    · rw [if_pos h1] at h
      refine ih _ _ _ h hc ?_
      refine le_trans (strip_length_le _) ?_
      simp only [List.length_append, List.length_cons]
      omega
    · rw [if_neg h1] at h
      by_cases h2 : p.length ≤ maxc
      · rw [if_pos h2] at h
        exact ih _ _ _ h (flushInto_bound maxc chunks buf hc hb) h2
      · rw [if_neg h2] at h
        cases hrec : hardSplitAux maxc ov p fuel 0 with
        | none => rw [hrec] at h; cases h
        | some parts =>
          rw [hrec] at h
          refine ih _ _ _ h ?_ (Nat.zero_le _)
          intro c hcm
          rcases List.mem_append.mp hcm with h3 | h3
          · exact flushInto_bound maxc chunks buf hc hb c h3
          · exact hardSplitAux_bound maxc ov p fuel 0 parts hrec c h3

lemma chunkLoop_flush_ne_nil (maxc ov fuel : Nat) :
    ∀ (ps chunks : List (List Char)) (buf : List Char) out,
      chunkLoop maxc ov fuel chunks buf ps = some out →
      (∀ p ∈ ps, ∃ c ∈ p, isWs c = false) →
      (chunks ≠ [] ∨ strip buf ≠ [] ∨ ps ≠ []) →
      flushInto out.1 out.2 ≠ [] := by
  intro ps
  induction ps with
  | nil =>
    intro chunks buf out h _ hinv
    cases h
    rcases hinv with h1 | h1 | h1
    · exact flushInto_ne_nil_left _ _ h1
    · exact flushInto_ne_nil_right _ _ h1
    · exact absurd rfl h1
  | cons p ps ih =>
    intro chunks buf out h hp hinv
    have hpnw : ∃ c ∈ p, isWs c = false := hp p (List.mem_cons_self _ _)
    have hps : ∀ q ∈ ps, ∃ c ∈ q, isWs c = false :=
      fun q hq => hp q (List.mem_cons_of_mem _ hq)
    simp only [chunkLoop] at h
    by_cases h1 : buf.length + p.length + 2 ≤ maxc
    · rw [if_pos h1] at h
      refine ih _ _ _ h hps (Or.inr (Or.inl ?_))
      apply strip_ne_nil_of_exists
      apply exists_nonWs_of_strip_ne_nil
      apply strip_ne_nil_of_exists
      obtain ⟨c, hcp, hcw⟩ := hpnw
      exact ⟨c, by simp [hcp], hcw⟩
    · rw [if_neg h1] at h
      by_cases h2 : p.length ≤ maxc
      · rw [if_pos h2] at h
        exact ih _ _ _ h hps (Or.inr (Or.inl (strip_ne_nil_of_exists hpnw)))
      · rw [if_neg h2] at h
        cases hrec : hardSplitAux maxc ov p fuel 0 with
        | none => rw [hrec] at h; cases h
        | some parts =>
          rw [hrec] at h
          refine ih _ _ _ h hps (Or.inl ?_)
          have hne : parts ≠ [] :=
            hardSplitAux_ne_nil maxc ov p fuel 0 parts hrec (by omega)
          intro hx
          rw [List.append_eq_nil] at hx
          exact hne hx.2

lemma chunk_textL_some (t : List Char) (maxc ov : Nat) (hov : ov < maxc)
    (fuel : Nat) (hfuel : t.length ≤ fuel) :
    ∃ cs, chunk_textL fuel t maxc ov = some cs := by
  unfold chunk_textL
  dsimp only
  by_cases ht : strip t = []
  · rw [if_pos ht]; exact ⟨[], rfl⟩
  · rw [if_neg ht]
    have hps : ∀ p ∈ parasOf (strip t), p.length ≤ fuel := by
      intro p hp
      have h1 := parasOf_length_le _ _ hp
      have h2 := strip_length_le t
      omega
    obtain ⟨out, hout⟩ := chunkLoop_some maxc ov fuel hov _ [] [] hps
    rw [hout]
    exact ⟨_, rfl⟩

lemma chunk_textL_eq_nil_iff (t : List Char) (maxc ov : Nat) (fuel : Nat)
    (cs : List (List Char)) (h : chunk_textL fuel t maxc ov = some cs) :
    cs = [] ↔ strip t = [] := by
  unfold chunk_textL at h
  dsimp only at h
  by_cases ht : strip t = []
  · rw [if_pos ht] at h
    cases h
    simp [ht]
  · rw [if_neg ht] at h
    simp only [ht, iff_false]
    cases hloop : chunkLoop maxc ov fuel [] [] (parasOf (strip t)) with
    | none => rw [hloop] at h; cases h
    | some out =>
      rw [hloop] at h
      cases h
      apply chunkLoop_flush_ne_nil maxc ov fuel _ _ _ _ hloop
      · exact fun p hp => parasOf_exists_nonWs _ p hp
      · refine Or.inr (Or.inr (parasOf_ne_nil _ ?_))
        exact exists_nonWs_of_strip_ne_nil ht

lemma chunk_text_some (t : String) (maxc ov : Nat) (hov : ov < maxc) :
    ∃ cs, chunk_text t maxc ov = some cs := by
  obtain ⟨cs, hcs⟩ := chunk_textL_some t.toList maxc ov hov (t.length + 1)
    (Nat.le_succ _)
  exact ⟨cs.map String.mk, by unfold chunk_text; rw [hcs]; rfl⟩

lemma chunkLoop_none (maxc ov fuel : Nat) (hov : maxc ≤ ov) :
    ∀ (ps chunks : List (List Char)) (buf : List Char),
      (∃ p ∈ ps, maxc < p.length) →
      chunkLoop maxc ov fuel chunks buf ps = none := by
  intro ps
  induction ps with
  | nil =>
    intro chunks buf h
    obtain ⟨p, hp, -⟩ := h
    cases hp
  | cons p ps ih =>
    intro chunks buf h
    simp only [chunkLoop]
    by_cases hlong : maxc < p.length
    · rw [if_neg (by omega), if_neg (by omega),
        hardSplitAux_none maxc ov hov p fuel 0 (by omega)]
    · obtain ⟨q, hq, hqlen⟩ := h
      rcases List.mem_cons.mp hq with rfl | hq'
      · exact absurd hqlen hlong
      · have hex : ∃ q ∈ ps, maxc < q.length := ⟨q, hq', hqlen⟩
        by_cases h1 : buf.length + p.length + 2 ≤ maxc
        · rw [if_pos h1]; exact ih _ _ hex
        · rw [if_neg h1, if_pos (by omega)]
          exact ih _ _ hex

lemma chunk_textL_none (t : List Char) (maxc ov fuel : Nat) (hov : maxc ≤ ov)
    (h : ∃ p ∈ parasOf (strip t), maxc < p.length) :
    chunk_textL fuel t maxc ov = none := by
  unfold chunk_textL
  dsimp only
  by_cases ht : strip t = []
  · exfalso
    obtain ⟨p, hp, -⟩ := h
    rw [ht] at hp
    cases (show parasOf ([] : List Char) = [] from rfl) ▸ hp
  · rw [if_neg ht, chunkLoop_none maxc ov fuel hov _ [] [] h]

lemma chunk_textL_bound (t : List Char) (maxc ov fuel : Nat)
    (cs : List (List Char)) (h : chunk_textL fuel t maxc ov = some cs) :
    ∀ c ∈ cs, c.length ≤ maxc := by
  unfold chunk_textL at h
  dsimp only at h
  by_cases ht : strip t = []
  · rw [if_pos ht] at h
    cases h
    intro c hc
    cases hc
  · rw [if_neg ht] at h
    cases hloop : chunkLoop maxc ov fuel [] [] (parasOf (strip t)) with
    | none => rw [hloop] at h; cases h
    | some out =>
      rw [hloop] at h
      cases h
      have hb := chunkLoop_bound maxc ov fuel _ [] [] out hloop
        (by intro c hc; cases hc) (by simp)
      exact flushInto_bound maxc out.1 out.2 hb.1 hb.2

lemma find_pair_fst (l : List String) (kw : String) :
    ((l.map (fun m => (m, toLowerStr m))).find? (fun p => strHasSub p.2 kw)).map Prod.fst
      = l.find? (fun m => strHasSub (toLowerStr m) kw) := by
  induction l with
  | nil => rfl
  | cons h t ih =>
    by_cases hx : strHasSub (toLowerStr h) kw
    · simp [List.find?, hx]
    · simp only [List.map_cons, List.find?]
      simp only [hx]
      simpa using ih

lemma pick_from_eq_spec_pick (models : List String) :
    pick_from models = spec_pick models := by
  unfold pick_from spec_pick
  dsimp only
  rw [find_pair_fst, find_pair_fst]

/-- Clearing the positive denominators of `cjk / total ≥ 8/100`. -/
lemma ratio_ge_iff (C N : Nat) (hN : 0 < N) :
    8 * N ≤ 100 * C ↔ (8 : ℚ) / 100 ≤ (C : ℚ) / (N : ℚ) := by
  rw [div_le_div_iff₀ (by norm_num) (by exact_mod_cast hN)]
  constructor
  · intro h
    have h' : ((8 * N : Nat) : ℚ) ≤ ((100 * C : Nat) : ℚ) := by exact_mod_cast h
    push_cast at h'
    linarith
  · intro h
    have h' : ((8 * N : Nat) : ℚ) ≤ ((100 * C : Nat) : ℚ) := by push_cast; linarith
    exact_mod_cast h'

lemma dropWhile_isWs_replicate_append (c : Char) (hc : isWs c = false)
    (n : Nat) (rest : List Char) :
    (List.replicate (n + 1) c ++ rest).dropWhile isWs
      = List.replicate (n + 1) c ++ rest := by
  simp [List.replicate_succ, List.dropWhile_cons, hc]

lemma rev_two_para (m n : Nat) (c d : Char) :
    (List.replicate m c ++ '\n' :: '\n' :: List.replicate n d).reverse
      = List.replicate n d ++ '\n' :: '\n' :: List.replicate m c := by
  simp [List.reverse_append, List.reverse_cons, List.reverse_replicate,
    List.append_assoc]

lemma strip_two_para (m n : Nat) (c d : Char) (hc : isWs c = false)
    (hd : isWs d = false) :
    strip (List.replicate (m + 1) c ++ '\n' :: '\n' :: List.replicate (n + 1) d)
      = List.replicate (m + 1) c ++ '\n' :: '\n' :: List.replicate (n + 1) d := by
  unfold strip
  rw [dropWhile_isWs_replicate_append c hc, rev_two_para,
    dropWhile_isWs_replicate_append d hd, rev_two_para]

lemma strip_replicate (n : Nat) (c : Char) (hc : isWs c = false) :
    strip (List.replicate (n + 1) c) = List.replicate (n + 1) c := by
  have h1 : (List.replicate (n + 1) c).dropWhile isWs = List.replicate (n + 1) c := by
    have := dropWhile_isWs_replicate_append c hc n []
    simpa using this
  unfold strip
  rw [h1, List.reverse_replicate, h1, List.reverse_replicate]

lemma splitNlAux_replicate_append (c : Char) (hc : ¬c = '\n') :
    ∀ (n : Nat) (rest seg : List Char),
      splitNlAux (List.replicate n c ++ rest) seg 0
        = splitNlAux rest (List.replicate n c ++ seg) 0 := by
  intro n
  induction n with
  | zero => intro rest seg; simp
  | succ k ih =>
    intro rest seg
    rw [List.replicate_succ, List.cons_append]
    simp only [splitNlAux]
    rw [if_neg hc, if_neg (by omega)]
    simp only [List.replicate, List.nil_append]
    rw [ih rest (c :: seg)]
    congr 1
    have hx : List.replicate k c ++ c :: seg = List.replicate (k + 1) c ++ seg := by
      rw [List.replicate_succ']
      simp
    rw [hx, List.replicate_succ, List.cons_append]

lemma splitNlAux_two_para (m n : Nat) (c d : Char) (hc : ¬c = '\n')
    (hd : ¬d = '\n') :
    splitNlAux (List.replicate (m + 1) c ++ '\n' :: '\n' :: List.replicate (n + 1) d) [] 0
      = [List.replicate (m + 1) c, List.replicate (n + 1) d] := by
  rw [splitNlAux_replicate_append c hc, List.append_nil,
    show List.replicate (n + 1) d = d :: List.replicate n d from List.replicate_succ d n]
  simp only [splitNlAux]
  simp [hd]
  rw [show List.replicate n d = List.replicate n d ++ [] from (List.append_nil _).symm,
    splitNlAux_replicate_append d hd]
  simp [splitNlAux, List.reverse_append]

lemma parasOf_two_para (m n : Nat) (c d : Char) (hcn : ¬c = '\n')
    (hdn : ¬d = '\n') (hc : isWs c = false) (hd : isWs d = false) :
    parasOf (List.replicate (m + 1) c ++ '\n' :: '\n' :: List.replicate (n + 1) d)
      = [List.replicate (m + 1) c, List.replicate (n + 1) d] := by
  unfold parasOf
  rw [splitNlAux_two_para m n c d hcn hdn]
  simp only [List.map_cons, List.map_nil,
    strip_replicate m c hc, strip_replicate n d hd]
  simp [List.filter, List.replicate_succ]

lemma strip_nl_nl (l : List Char) :
    strip ('\n' :: '\n' :: l) = strip l := by
  unfold strip
  rw [List.dropWhile_cons, if_pos (by decide), List.dropWhile_cons, if_pos (by decide)]

lemma chunk_textL_bigDoc (fuel : Nat) :
    chunk_textL fuel (paraA ++ '\n' :: '\n' :: paraB) 12000 600
      = some [paraA, paraB] := by
  unfold chunk_textL paraA paraB
  dsimp only
  have h7 : (7000 : Nat) = 6999 + 1 := by norm_num
  have hstrip : strip (List.replicate 7000 'a' ++ '\n' :: '\n' :: List.replicate 7000 'b')
      = List.replicate 7000 'a' ++ '\n' :: '\n' :: List.replicate 7000 'b' := by
    rw [h7]
    exact strip_two_para 6999 6999 'a' 'b' rfl rfl
  rw [hstrip]
  have hne : List.replicate 7000 'a' ++ '\n' :: '\n' :: List.replicate 7000 'b' ≠ [] := by
    intro h
    rw [List.append_eq_nil] at h
    exact List.cons_ne_nil _ _ h.2
  rw [if_neg hne]
  have hparas : parasOf (List.replicate 7000 'a' ++ '\n' :: '\n' :: List.replicate 7000 'b')
      = [List.replicate 7000 'a', List.replicate 7000 'b'] := by
    rw [h7]
    exact parasOf_two_para 6999 6999 'a' 'b' (by decide) (by decide) rfl rfl
  rw [hparas]
  have hsa : strip (List.replicate 7000 'a') = List.replicate 7000 'a' := by
    rw [h7]; exact strip_replicate 6999 'a' rfl
  have hsb : strip (List.replicate 7000 'b') = List.replicate 7000 'b' := by
    rw [h7]; exact strip_replicate 6999 'b' rfl
  have hna : List.replicate 7000 'a' ≠ [] := by
    intro h
    have := congrArg List.length h
    rw [List.length_replicate] at this
    exact absurd this (by decide)
  have hnb : List.replicate 7000 'b' ≠ [] := by
    intro h
    have := congrArg List.length h
    rw [List.length_replicate] at this
    exact absurd this (by decide)
  simp only [chunkLoop]
  rw [if_pos (by rw [List.length_replicate]; decide)]
  rw [show ([] : List Char) ++ '\n' :: '\n' :: List.replicate 7000 'a'
      = '\n' :: '\n' :: List.replicate 7000 'a' from rfl]
  rw [strip_nl_nl, hsa]
  rw [if_neg (by rw [List.length_replicate, List.length_replicate]; decide)]
  rw [if_pos (by rw [List.length_replicate]; decide)]
  unfold flushInto
  rw [hsa, if_neg hna]
  dsimp only
  rw [hsb, if_neg hnb]
  rfl

lemma chunk_text_bigDoc :
    chunk_text bigDoc 12000 600 = some [String.mk paraA, String.mk paraB] := by
  unfold chunk_text
  rw [show bigDoc.toList = paraA ++ '\n' :: '\n' :: paraB from rfl,
    chunk_textL_bigDoc]
  rfl

lemma mapChunks_ok (B : Backend) (f : String → String → String)
    (hf : ∀ p m, B.gen p m = .ok (f p m)) (ol mn : String) (total : Nat) :
    ∀ (cs : List String) (idx : Nat),
      mapChunks B ol mn total idx cs
        = (.ok (chunkPartials f ol mn total idx cs),
           chunkCallTrace ol mn total idx cs) := by
  intro cs
  induction cs with
  | nil => intro idx; rfl
  | cons ch rest ih =>
    intro idx
    simp only [mapChunks, chunkPartials, chunkCallTrace]
    rw [hf, ih (idx + 1)]

lemma mapChunks_fail (B : Backend) (ol mn : String) (total : Nat) (e : Err) :
    ∀ (cs : List String) (idx k : Nat) (g : Nat → String),
      k < cs.length →
      (∀ i, i < k → B.gen (chunkPrompt ol (idx + i) total (cs.getD i "")) mn = .ok (g i)) →
      B.gen (chunkPrompt ol (idx + k) total (cs.getD k "")) mn = .error e →
      mapChunks B ol mn total idx cs
        = (.error e, chunkCallTrace ol mn total idx (cs.take (k + 1))) := by
  intro cs
  induction cs with
  | nil =>
    intro idx k g hk
    simp at hk
  | cons ch rest ih =>
    intro idx k g hk hok hfail
    cases k with
    | zero =>
      rw [Nat.add_zero, show (ch :: rest).getD 0 "" = ch from rfl] at hfail
      simp only [mapChunks]
      rw [hfail]
      rfl
    | succ k' =>
      have h0 := hok 0 (Nat.succ_pos _)
      rw [Nat.add_zero, show (ch :: rest).getD 0 "" = ch from rfl] at h0
      simp only [mapChunks]
      rw [h0]
      have hok' : ∀ i, i < k' →
          B.gen (chunkPrompt ol ((idx + 1) + i) total (rest.getD i "")) mn
            = .ok (g (i + 1)) := by
        intro i hi
        have h1 := hok (i + 1) (by omega)
        rw [show (ch :: rest).getD (i + 1) "" = rest.getD i "" from rfl,
          show idx + (i + 1) = (idx + 1) + i by omega] at h1
        exact h1
      have hfail' : B.gen (chunkPrompt ol ((idx + 1) + k') total (rest.getD k' "")) mn
          = .error e := by
        have h1 := hfail
        rw [show (ch :: rest).getD (k' + 1) "" = rest.getD k' "" from rfl,
          show idx + (k' + 1) = (idx + 1) + k' by omega] at h1
        exact h1
      have hk' : k' < rest.length := by
        simp only [List.length_cons] at hk
        omega
      rw [ih (idx + 1) k' (fun i => g (i + 1)) hk' hok' hfail']
      rfl

/-! ### Claim theorems -/

/-- C8: `detect_language` returns `"zh"` exactly when the count of
characters in U+4E00–U+9FFF divided by `max(len(text), 1)` is at least
0.08, and `"en"` otherwise; `detect_language "" = "en"`, an all-CJK string
gives `"zh"`, and `"hello world"` gives `"en"`. -/
theorem detect_language_spec :
    (∀ t : String, detect_language t = "zh" ↔
        (8 : ℚ) / 100 ≤ (countCJK t.toList : ℚ) / ((max t.length 1 : Nat) : ℚ))
    ∧ (∀ t : String, detect_language t = "zh" ∨ detect_language t = "en")
    ∧ detect_language "" = "en"
    ∧ detect_language "你好世界你好世界你好世界" = "zh"
    ∧ detect_language "hello world" = "en" := by
  refine ⟨?_, ?_, by decide, by decide, by decide⟩
  · intro t
    by_cases ht : t = ""
    · subst ht
      constructor
      · intro h; exact absurd h (by decide)
      · intro h
        rw [show countCJK ("" : String).toList = 0 from rfl,
          show ("" : String).length = 0 from rfl] at h
        norm_num at h
    · have key := ratio_ge_iff (countCJK t.toList) (max t.length 1)
        (Nat.lt_of_lt_of_le Nat.zero_lt_one (le_max_right _ _))
      unfold detect_language
      rw [if_neg ht]
      by_cases hc : 8 * max t.length 1 ≤ 100 * countCJK t.toList
      · rw [if_pos hc]
        exact ⟨fun _ => key.mp hc, fun _ => rfl⟩
      · rw [if_neg hc]
        exact ⟨fun h => absurd h (by decide), fun h => absurd (key.mpr h) hc⟩
  · intro t
    by_cases ht : t = ""
    · right; simp [detect_language, ht]
    · unfold detect_language
      rw [if_neg ht]
      by_cases hc : 8 * max t.length 1 ≤ 100 * countCJK t.toList
      · left; rw [if_pos hc]
      · right; rw [if_neg hc]

/-- C7: `pick_model` scans the discovered identifiers case-insensitively,
returning the first containing `"flash"`, else the first containing
`"pro"`, else the first listed model (`spec_pick` is that selection, worded
as in the spec), with the three concrete examples of the spec. -/
theorem pick_model_preference_scan :
    (∀ models, pick_from models = spec_pick models)
    ∧ pick_from ["modelA-pro", "modelB-flash"] = some "modelB-flash"
    ∧ pick_from ["modelA-pro"] = some "modelA-pro"
    ∧ pick_from ["modelX"] = some "modelX"
    ∧ (∀ (B : Backend) (models : List String), B.models = .ok models → models ≠ [] →
        pick_model B ["flash", "pro"]
          = match spec_pick models with
            | some m => .ok m
            | none => .error "IndexError: list index out of range") := by
  refine ⟨pick_from_eq_spec_pick, by decide, by decide, by decide, ?_⟩
  intro B models hB hne
  unfold pick_model list_gemini_models
  rw [hB]
  simp only [if_neg hne]
  rw [pick_from_eq_spec_pick]

/-- Witness for C7's conditional part at a concrete backend. -/
theorem pick_model_preference_scan_witness :
    pick_model ⟨.ok ["modelA-pro", "modelB-flash"], fun _ _ => .ok ""⟩ ["flash", "pro"]
      = .ok "modelB-flash" := by
  have h := pick_model_preference_scan.2.2.2.2
    ⟨.ok ["modelA-pro", "modelB-flash"], fun _ _ => .ok ""⟩
    ["modelA-pro", "modelB-flash"] rfl (by decide)
  rw [h]
  decide

/-- C10: the `preferred_keywords` parameter of `pick_model` is dead: any
two argument values give the same result. -/
theorem pick_model_ignores_keywords :
    ∀ (B : Backend) (k1 k2 : List String), pick_model B k1 = pick_model B k2 :=
  fun _ _ _ => rfl

/-- C5: on empty or whitespace-only input, `summarize_long_document`
returns the sentinel `"No content provided."`, language `"en"`, meta with
chunk count 0, and makes no backend call (empty trace). -/
theorem summarize_long_document_empty_sentinel :
    ∀ (B : Backend) (raw : String) (force : Option String),
      stripStr raw = "" →
      summarize_long_document B raw force
        = (.ok ("No content provided.", "en", ⟨0, none⟩), []) := by
  intro B raw force h
  unfold summarize_long_document
  rw [if_pos h]

/-- Witness for C5 at whitespace-only input and a backend that would fail
if it were consulted. -/
theorem summarize_long_document_empty_sentinel_witness :
    summarize_long_document downBackend "  \n\t " (some "zh")
      = (.ok ("No content provided.", "en", ⟨0, none⟩), []) :=
  summarize_long_document_empty_sentinel downBackend "  \n\t " (some "zh") (by decide)

/-- C6: whenever `summarize_long_document` returns, its language tag is the
forced language if that is `"zh"` or `"en"`, and `detect_language raw_text`
otherwise. -/
theorem summarize_long_document_lang_resolution :
    ∀ (B : Backend) (raw : String) (force : Option String) (s l : String)
      (m : Meta) (tr : List Call),
      stripStr raw ≠ "" →
      summarize_long_document B raw force = (.ok (s, l, m), tr) →
      l = match force with
          | some fl => if fl = "zh" ∨ fl = "en" then fl else detect_language raw
          | none => detect_language raw := by
  intro B raw force s l m tr hne hrun
  unfold summarize_long_document at hrun
  rw [if_neg hne] at hrun
  dsimp only at hrun
  split at hrun
  · simp at hrun
  · split at hrun
    · simp at hrun
    · split at hrun
      · split at hrun
        · simp at hrun
        · rw [Prod.mk.injEq] at hrun
          obtain ⟨h1, -⟩ := hrun
          simp only [Except.ok.injEq, Prod.mk.injEq] at h1
          exact h1.2.1.symm
      · split at hrun
        · simp at hrun
        · split at hrun
          · simp at hrun
          · rw [Prod.mk.injEq] at hrun
            obtain ⟨h1, -⟩ := hrun
            simp only [Except.ok.injEq, Prod.mk.injEq] at h1
            exact h1.2.1.symm

/-- C2: with `overlap < max_chars`, `chunk_text` terminates and every chunk
it returns has length at most `max_chars`. -/
theorem chunk_text_chunks_within_max_chars :
    ∀ (t : String) (maxc ov : Nat), ov < maxc → t ≠ "" →
      (chunk_text t maxc ov).isSome = true
      ∧ ∀ cs, chunk_text t maxc ov = some cs → ∀ c ∈ cs, c.length ≤ maxc := by
  intro t maxc ov hov _
  constructor
  · obtain ⟨cs, hcs⟩ := chunk_text_some t maxc ov hov
    rw [hcs]
    rfl
  · intro cs hcs c hc
    unfold chunk_text at hcs
    cases hL : chunk_textL (t.length + 1) t.toList maxc ov with
    | none => rw [hL] at hcs; cases hcs
    | some csL =>
      rw [hL] at hcs
      simp only [Option.map_some', Option.some.injEq] at hcs
      subst hcs
      obtain ⟨cL, hcL, rfl⟩ := List.mem_map.mp hc
      show cL.length ≤ maxc
      exact chunk_textL_bound t.toList maxc ov (t.length + 1) csL hL cL hcL

/-- Witness for C2 at an input whose single paragraph is hard-split with
overlap 1. -/
theorem chunk_text_chunks_within_max_chars_witness :
    (chunk_text "hello world" 5 1).isSome = true
    ∧ String.length "hello" ≤ 5 ∧ String.length "o wor" ≤ 5
    ∧ String.length "rld" ≤ 5 := by
  have h := chunk_text_chunks_within_max_chars "hello world" 5 1 (by decide) (by decide)
  have he : chunk_text "hello world" 5 1 = some ["hello", "o wor", "rld"] := by decide
  exact ⟨h.1, h.2 _ he "hello" (by decide), h.2 _ he "o wor" (by decide),
    h.2 _ he "rld" (by decide)⟩

/-- C3 (amended): the source never validates `overlap < max_chars` and does
not fail fast.  Under the precondition the hard-split advance
`max_chars - overlap` is positive and `chunk_text` terminates on every
input (canonical fuel suffices); with `overlap ≥ max_chars` and a paragraph
longer than `max_chars`, the advance is zero and the hard-split loop
exhausts every fuel bound (the Python loop never terminates). -/
theorem chunk_text_progress_and_divergence :
    (∀ (t : String) (maxc ov : Nat), ov < maxc → (chunk_text t maxc ov).isSome = true)
    ∧ (∀ (t : String) (maxc ov fuel : Nat), maxc ≤ ov →
        (∃ p ∈ parasOf (strip t.toList), maxc < p.length) →
        chunk_textL fuel t.toList maxc ov = none) := by
  constructor
  · intro t maxc ov hov
    obtain ⟨cs, hcs⟩ := chunk_text_some t maxc ov hov
    rw [hcs]
    rfl
  · intro t maxc ov fuel hov h
    exact chunk_textL_none t.toList maxc ov fuel hov h

/-- Witness for C3: termination at `overlap < max_chars`, and fuel
exhaustion at `overlap = max_chars` on a ten-character paragraph, for an
arbitrary concrete fuel. -/
theorem chunk_text_progress_and_divergence_witness :
    (chunk_text "ab" 3 1).isSome = true
    ∧ chunk_textL 42 "aaaaaaaaaa".toList 5 5 = none :=
  ⟨chunk_text_progress_and_divergence.1 "ab" 3 1 (by decide),
    chunk_text_progress_and_divergence.2 "aaaaaaaaaa" 5 5 42 (by decide) (by decide)⟩

/-- C3 counterexample to the claim as stated: at `overlap = max_chars = 5`
the call does not fail fast with a validation error — the canonical-fuel
run exhausts its fuel because the hard-split window advance
`max_chars - overlap` is zero, modelling the Python infinite loop. -/
theorem chunk_text_overlap_violation_not_fail_fast :
    chunk_text "aaaaaaaaaa" 5 5 = none := by decide

/-- C9: with `overlap < max_chars`, `chunk_text` returns the empty sequence
exactly for empty/whitespace-only input. -/
theorem chunk_text_empty_iff_blank :
    ∀ (t : String) (maxc ov : Nat), ov < maxc →
      (chunk_text t maxc ov).isSome = true
      ∧ ∀ cs, chunk_text t maxc ov = some cs → (cs = [] ↔ stripStr t = "") := by
  intro t maxc ov hov
  constructor
  · obtain ⟨cs, hcs⟩ := chunk_text_some t maxc ov hov
    rw [hcs]
    rfl
  · intro cs hcs
    unfold chunk_text at hcs
    cases hL : chunk_textL (t.length + 1) t.toList maxc ov with
    | none => rw [hL] at hcs; cases hcs
    | some csL =>
      rw [hL] at hcs
      simp only [Option.map_some', Option.some.injEq] at hcs
      subst hcs
      have h1 := chunk_textL_eq_nil_iff t.toList maxc ov (t.length + 1) csL hL
      constructor
      · intro h2
        rw [List.map_eq_nil_iff] at h2
        unfold stripStr
        rw [h1.mp h2]
      · intro h2
        rw [List.map_eq_nil_iff]
        apply h1.mpr
        unfold stripStr at h2
        rw [show ("" : String) = String.mk [] from rfl] at h2
        exact congrArg String.data h2

/-- Witness for C9: blank input maps to the empty chunk sequence. -/
theorem chunk_text_empty_iff_blank_witness :
    stripStr " \n " = "" :=
  ((chunk_text_empty_iff_blank " \n " 7 3 (by decide)).2 [] (by decide)).mp rfl

/-- C1: on a document with `N > 1` chunks and a fully-successful backend,
`summarize_long_document` makes exactly one chunk-mode compression call per
chunk (in chunk order, each chunk truncated to its first 14000 characters,
inside `chunkPrompt`), then newline-joins the `N` partial summaries in
order, truncates the merge buffer to 20000 characters, makes exactly one
final-mode call on it, and returns a meta whose chunk count is `N`. -/
theorem summarize_long_document_map_reduce_call_structure :
    ∀ (B : Backend) (raw : String) (force : Option String)
      (f : String → String → String) (model : String) (cs : List String),
      (∀ p m, B.gen p m = .ok (f p m)) →
      pick_model B ["flash", "pro"] = .ok model →
      chunk_text raw 12000 600 = some cs →
      1 < cs.length →
      summarize_long_document B raw force
        = (.ok (f (condensedPrompt (langOf raw force)
              (takeStr 20000 (String.intercalate "\n"
                (chunkPartials f (langOf raw force) model cs.length 1 cs)))) model,
            langOf raw force, ⟨cs.length, some model⟩),
          Call.listModels
            :: (chunkCallTrace (langOf raw force) model cs.length 1 cs
              ++ [Call.generate (condensedPrompt (langOf raw force)
                    (takeStr 20000 (String.intercalate "\n"
                      (chunkPartials f (langOf raw force) model cs.length 1 cs))))
                  model])) := by
  intro B raw force f model cs hf hm hc hn
  have hne : stripStr raw ≠ "" := by
    intro h
    have h0 : strip raw.toList = [] := congrArg String.data h
    unfold chunk_text chunk_textL at hc
    dsimp only at hc
    rw [if_pos h0] at hc
    simp only [Option.map_some', Option.some.injEq] at hc
    rw [← hc] at hn
    simp at hn
  unfold summarize_long_document
  rw [if_neg hne]
  dsimp only
  rw [hm, hc]
  dsimp only
  rw [if_neg (by omega), mapChunks_ok B f hf _ model cs.length cs 1]
  unfold summarize_condensed
  dsimp only
  rw [hf]

/-- C4: `summarize_long_document` is all-or-nothing.  A failing discovery
call, a failing single-pass compression, any failing map-phase compression,
or a failing final-mode compression makes the whole call return that very
error (unmodified) with no further backend calls and no summary; the map
loop stops at the first failing chunk `k`, having made exactly the calls
for chunks `0..k`. -/
theorem summarize_long_document_error_propagation :
    ∀ (B : Backend) (raw : String) (force : Option String) (e : Err),
      stripStr raw ≠ "" →
      ((B.models = .error e →
          summarize_long_document B raw force = (.error e, [Call.listModels]))
      ∧ (∀ model cs, pick_model B ["flash", "pro"] = .ok model →
          chunk_text raw 12000 600 = some cs → cs.length ≤ 1 →
          B.gen (condensedPrompt (langOf raw force) (takeStr 20000 raw)) model
            = .error e →
          summarize_long_document B raw force
            = (.error e, [Call.listModels,
                Call.generate (condensedPrompt (langOf raw force)
                  (takeStr 20000 raw)) model]))
      ∧ (∀ model cs tr, pick_model B ["flash", "pro"] = .ok model →
          chunk_text raw 12000 600 = some cs → 1 < cs.length →
          mapChunks B (langOf raw force) model cs.length 1 cs = (.error e, tr) →
          summarize_long_document B raw force
            = (.error e, Call.listModels :: tr))
      ∧ (∀ model cs partials tr, pick_model B ["flash", "pro"] = .ok model →
          chunk_text raw 12000 600 = some cs → 1 < cs.length →
          mapChunks B (langOf raw force) model cs.length 1 cs = (.ok partials, tr) →
          B.gen (condensedPrompt (langOf raw force)
            (takeStr 20000 (String.intercalate "\n" partials))) model = .error e →
          summarize_long_document B raw force
            = (.error e, Call.listModels :: (tr ++ [Call.generate
                (condensedPrompt (langOf raw force)
                  (takeStr 20000 (String.intercalate "\n" partials))) model])))
      ∧ (∀ (ol mn : String) (total : Nat) (cs : List String) (idx k : Nat)
            (g : Nat → String),
          k < cs.length →
          (∀ i, i < k →
            B.gen (chunkPrompt ol (idx + i) total (cs.getD i "")) mn = .ok (g i)) →
          B.gen (chunkPrompt ol (idx + k) total (cs.getD k "")) mn = .error e →
          mapChunks B ol mn total idx cs
            = (.error e, chunkCallTrace ol mn total idx (cs.take (k + 1))))) := by
  intro B raw force e hne
  refine ⟨?_, ?_, ?_, ?_, ?_⟩
  · intro hB
    have hpm : pick_model B ["flash", "pro"] = .error e := by
      unfold pick_model list_gemini_models
      rw [hB]
    unfold summarize_long_document
    rw [if_neg hne]
    dsimp only
    rw [hpm]
  · intro model cs hm hc hlen hfail
    unfold summarize_long_document
    rw [if_neg hne]
    dsimp only
    rw [hm, hc]
    dsimp only
    rw [if_pos hlen]
    unfold summarize_condensed
    dsimp only
    rw [hfail]
  · intro model cs tr hm hc hlen hmap
    unfold summarize_long_document
    rw [if_neg hne]
    dsimp only
    rw [hm, hc]
    dsimp only
    rw [if_neg (by omega)]
    rw [hmap]
  · intro model cs partials tr hm hc hlen hmap hfail
    unfold summarize_long_document
    rw [if_neg hne]
    dsimp only
    rw [hm, hc]
    dsimp only
    rw [if_neg (by omega)]
    rw [hmap]
    unfold summarize_condensed
    dsimp only
    rw [hfail]
  · intro ol mn total cs idx k g hk hok hfail
    exact mapChunks_fail B ol mn total e cs idx k g hk hok hfail

/-- Witness for C4: a backend whose generation calls fail makes the
single-pass path return the backend's error after exactly one discovery
call and one generation attempt. -/
theorem summarize_long_document_error_propagation_witness :
    summarize_long_document genFailBackend "hi" none
      = (.error "Gemini error 500: boom", [Call.listModels,
          Call.generate (condensedPrompt (langOf "hi" none) (takeStr 20000 "hi"))
            "m-flash"]) :=
  ((summarize_long_document_error_propagation genFailBackend "hi" none
      "Gemini error 500: boom" (by decide)).2.1)
    "m-flash" ["hi"] (by decide) (by decide) (by decide) rfl

/-- Witness for C1 at a concrete 14002-character two-paragraph document
producing exactly two chunks, with a constant successful backend. -/
theorem summarize_long_document_map_reduce_call_structure_witness :
    summarize_long_document okBackend bigDoc none
      = (.ok (constGen (condensedPrompt (langOf bigDoc none)
            (takeStr 20000 (String.intercalate "\n"
              (chunkPartials constGen (langOf bigDoc none) "m-flash" 2 1
                [String.mk paraA, String.mk paraB])))) "m-flash",
          langOf bigDoc none, ⟨2, some "m-flash"⟩),
        Call.listModels
          :: (chunkCallTrace (langOf bigDoc none) "m-flash" 2 1
                [String.mk paraA, String.mk paraB]
            ++ [Call.generate (condensedPrompt (langOf bigDoc none)
                  (takeStr 20000 (String.intercalate "\n"
                    (chunkPartials constGen (langOf bigDoc none) "m-flash" 2 1
                      [String.mk paraA, String.mk paraB])))) "m-flash"])) :=
  summarize_long_document_map_reduce_call_structure okBackend bigDoc none
    constGen "m-flash" [String.mk paraA, String.mk paraB]
    (fun _ _ => rfl) (by decide) chunk_text_bigDoc (by decide)

/-- Witness for C6: a Chinese-script document with forced `"en"` comes back
tagged `"en"`, even though detection says `"zh"`. -/
theorem summarize_long_document_lang_resolution_witness :
    ("en" : String) = (match (some "en" : Option String) with
      | some fl => if fl = "zh" ∨ fl = "en" then fl else detect_language zhDoc
      | none => detect_language zhDoc)
    ∧ detect_language zhDoc = "zh" :=
  ⟨summarize_long_document_lang_resolution okBackend zhDoc (some "en") "S" "en"
      ⟨1, some "m-flash"⟩ [Call.listModels,
        Call.generate (condensedPrompt "en" (takeStr 20000 zhDoc)) "m-flash"]
      (by decide) (by decide),
    by decide⟩

end SMS
